import Mathlib

/-!
Verification of the usb-pd-parser pipeline (parse_toc.py, parse_sections.py,
validate_and_report.py) against its natural-language specification.

Strings are modelled as Lean `String`s backed by `List Char`; Python `int`
values appearing in data are modelled as `Int` (page numbers, numeric keys)
or `Nat` where the source can only produce non-negative values.  Python
functions that can raise (e.g. `int(...)` inside a sort key) are modelled
with `Option`.
-/

set_option linter.unusedVariables false

namespace UsbPd

/-! ### Python character classes and string primitives -/

/-- ASCII whitespace, the character class matched by Python's `\s` and
stripped by `str.strip()` for the inputs of this pipeline. -/
def isPySpace (c : Char) : Bool :=
  c = ' ' || c = '\t' || c = '\n' || c = '\r' || c = '\x0b' || c = '\x0c'

/-- The character set stripped by `str.strip(" .")` in `normalize_title`. -/
def isDotOrSpace (c : Char) : Bool := c = ' ' || c = '.'

/-- A dot character test, used to state properties of dot-leader collapsing. -/
def isDot (c : Char) : Bool := c = '.'

/-- Python `str.strip(chars)`: drop characters satisfying `p` from both ends. -/
def pyStrip (p : Char → Bool) (l : List Char) : List Char :=
  ((l.dropWhile p).reverse.dropWhile p).reverse

/-- State machine for `re.sub(r"\.{2,}", " ", s)` in `normalize_title`
(parse_toc.py line 24): a run of two or more dots becomes a single space,
a single dot is kept.  The flag records that we are inside a dot run that
has already been replaced by a space. -/
def sub_dot_leaders_aux : Bool → List Char → List Char
  | _, [] => []
  | true, c :: rest =>
    if c = '.' then sub_dot_leaders_aux true rest
    else c :: sub_dot_leaders_aux false rest
  | false, c :: rest =>
    if c = '.' then
      if rest.head? = some '.' then ' ' :: sub_dot_leaders_aux true rest
      else '.' :: sub_dot_leaders_aux false rest
    else c :: sub_dot_leaders_aux false rest

/-- `re.sub(r"\.{2,}", " ", s)` on the character list of `s`. -/
def sub_dot_leaders (l : List Char) : List Char := sub_dot_leaders_aux false l

/-- State machine for `re.sub(r"\s+", " ", s)` in `normalize_title`
(parse_toc.py line 25): every maximal whitespace run becomes one space.
The flag records that we are inside a run already replaced by a space. -/
def sub_whitespace_aux : Bool → List Char → List Char
  | _, [] => []
  | true, c :: rest =>
    if isPySpace c then sub_whitespace_aux true rest
    else c :: sub_whitespace_aux false rest
  | false, c :: rest =>
    if isPySpace c then ' ' :: sub_whitespace_aux true rest
    else c :: sub_whitespace_aux false rest

/-- `re.sub(r"\s+", " ", s)` on the character list of `s`. -/
def sub_whitespace (l : List Char) : List Char := sub_whitespace_aux false l

/-- `normalize_title` (parse_toc.py lines 13-26) on character lists:
strip whitespace, collapse dot leaders, collapse whitespace runs, then
strip spaces and dots from both ends. -/
def normalize_title_chars (l : List Char) : List Char :=
  pyStrip isDotOrSpace (sub_whitespace (sub_dot_leaders (pyStrip isPySpace l)))

/-- `normalize_title` from parse_toc.py. -/
def normalize_title (s : String) : String :=
  String.mk (normalize_title_chars s.toList)

/-! ### A normal form characterising the image of `normalize_title` -/

/-- No two adjacent characters both satisfy `p`. -/
def noAdjPair (p : Char → Bool) : List Char → Bool
  | [] => true
  | [_] => true
  | a :: b :: t => !(p a && p b) && noAdjPair p (b :: t)

/-- Every whitespace character is a plain space. -/
def wsOnlySpace (l : List Char) : Bool :=
  l.all fun c => !isPySpace c || c = ' '

/-- An optional character does not satisfy `p` (vacuously true for `none`). -/
def optNot (p : Char → Bool) : Option Char → Bool
  | some c => !p c
  | none => true

/-- Neither end of the list is a space or a dot. -/
def boundaryOk (l : List Char) : Bool :=
  optNot isDotOrSpace l.head? && optNot isDotOrSpace l.getLast?

/-- The normal form of titles produced by `normalize_title`: no adjacent
dots, no adjacent whitespace, all whitespace is a plain space, and the
ends are neither spaces nor dots. -/
def titleNormalized (l : List Char) : Bool :=
  noAdjPair isDot l && noAdjPair isPySpace l && wsOnlySpace l && boundaryOk l

/-! ### Splitting and joining section ids, Python int parsing -/

/-- Python `s.split(".")`: always non-empty, `"" ↦ [""]`, `"a.b" ↦ ["a","b"]`. -/
def splitOnDot : List Char → List (List Char)
  | [] => [[]]
  | c :: rest =>
    if c = '.' then [] :: splitOnDot rest
    else
      match splitOnDot rest with
      | g :: gs => (c :: g) :: gs
      | [] => [[c]]

/-- Python `".".join(groups)`. -/
def joinDots (gs : List (List Char)) : List Char :=
  List.intercalate ['.'] gs

/-- Digit run of Python `int(...)`: one or more digits, with single
underscores allowed between digits (PEP 515). -/
def pyDigits : Nat → List Char → Option Nat
  | acc, [] => some acc
  | acc, '_' :: c :: rest =>
    if c.isDigit then pyDigits (acc * 10 + (c.toNat - '0'.toNat)) rest else none
  | _, ['_'] => none
  | acc, c :: rest =>
    if c.isDigit then pyDigits (acc * 10 + (c.toNat - '0'.toNat)) rest else none

/-- Python `int(s)` on a character list: strips whitespace, accepts an
optional sign followed by a digit run; `none` models `ValueError`. -/
def pyInt : List Char → Option Int
  | l =>
    match pyStrip isPySpace l with
    | '+' :: c :: rest =>
      if c.isDigit then (pyDigits (c.toNat - '0'.toNat) rest).map Int.ofNat
      else none
    | '-' :: c :: rest =>
      if c.isDigit then (pyDigits (c.toNat - '0'.toNat) rest).map
        (fun (n : Nat) => -(n : Int))
      else none
    | c :: rest =>
      if c.isDigit then (pyDigits (c.toNat - '0'.toNat) rest).map Int.ofNat
      else none
    | [] => none

/-- `numeric_key` of parse_sections.py line 254 and the sort key of
find_headings line 172: `tuple(int(p) for p in sid.split("."))`; `none`
models the `ValueError` raised on a non-numeric component. -/
def numeric_key (sid : String) : Option (List Int) :=
  (splitOnDot sid.toList).mapM pyInt

/-! ### parse_toc.py: `infer_parent_id` and `parse_toc_entries` -/

/-- `infer_parent_id` (parse_toc.py lines 29-38):
`".".join(section_id.split(".")[:-1])` when the id contains a dot,
otherwise `None`. -/
def infer_parent_id (section_id : String) : Option String :=
  if '.' ∈ section_id.toList then
    some (String.mk (joinDots (splitOnDot section_id.toList).dropLast))
  else none

/-- Word characters for the `\b` boundaries of the year regex. -/
def isWordChar (c : Char) : Bool := c.isAlphanum || c = '_'

/-- `re.search(r"\b(19|20)\d{2}\b", title)` (parse_toc.py line 94): somewhere
in the list there is a four-digit token starting `19` or `20` delimited by
non-word characters.  `prevWord` records whether the character to the left
is a word character. -/
def hasYearFrom (prevWord : Bool) : List Char → Bool
  | c1 :: c2 :: c3 :: c4 :: rest =>
    (!prevWord &&
      ((c1 = '1' && c2 = '9') || (c1 = '2' && c2 = '0')) &&
      c3.isDigit && c4.isDigit &&
      (match rest with | [] => true | r :: _ => !isWordChar r)) ||
    hasYearFrom (isWordChar c1) (c2 :: c3 :: c4 :: rest)
  | _ :: _ :: _ :: [] => false
  | _ :: _ :: [] => false
  | _ :: [] => false
  | [] => false

/-- The revision-history guard of parse_toc.py line 94 applied to a title. -/
def containsYear (title : String) : Bool := hasYearFrom false title.toList

/-- One regex match of the ToC line pattern (parse_toc.py lines 74-77):
the captured section id, the raw title, and the captured page number
(already an integer, the capture being `\d{1,4}`). -/
structure TocMatch where
  sid : String
  rawTitle : String
  page : Nat
deriving DecidableEq, Repr

/-- A Table-of-Contents entry (base_models.py `TocEntry`). -/
structure TocEntry where
  doc_title : String
  section_id : String
  title : String
  page : Nat
  level : Nat
  parent_id : Option String
  full_path : String
  tags : List String
deriving DecidableEq, Repr

/-- The filters a match must pass before being considered (parse_toc.py
lines 86-95): the page is within `[1, num_pages]` and the normalized title
contains no four-digit year. -/
def tocMatchPasses (num_pages : Nat) (m : TocMatch) : Bool :=
  !(m.page < 1 || m.page > num_pages) && !containsYear (normalize_title m.rawTitle)

/-- The entry built for a surviving match (parse_toc.py lines 104-115). -/
def mkTocEntry (doc_title : String) (m : TocMatch) : TocEntry :=
  let title := normalize_title m.rawTitle
  { doc_title := doc_title
    section_id := m.sid
    title := title
    page := m.page
    level := m.sid.toList.count '.' + 1
    parent_id := infer_parent_id m.sid
    full_path := m.sid ++ " " ++ title
    tags := [] }

/-- The match loop of `parse_toc_entries` (parse_toc.py lines 81-115) with
its `seen_section_ids` set: matches are processed in text order; a match is
dropped if its page is out of range, its normalized title contains a year,
or its section id was already emitted. -/
def parse_toc_loop (num_pages : Nat) (doc_title : String)
    (seen : List String) : List TocMatch → List TocEntry
  | [] => []
  | m :: rest =>
    if m.page < 1 || m.page > num_pages then
      parse_toc_loop num_pages doc_title seen rest
    else if containsYear (normalize_title m.rawTitle) then
      parse_toc_loop num_pages doc_title seen rest
    else if m.sid ∈ seen then
      parse_toc_loop num_pages doc_title seen rest
    else
      mkTocEntry doc_title m ::
        parse_toc_loop num_pages doc_title (m.sid :: seen) rest

/-- `parse_toc_entries` (parse_toc.py lines 61-117), taking the list of
regex matches of the ToC line pattern in text order. -/
def parse_toc_entries (ms : List TocMatch) (num_pages : Nat)
    (doc_title : String) : List TocEntry :=
  parse_toc_loop num_pages doc_title [] ms

/-! ### parse_sections.py: the dedup-and-sort stage of `find_headings` -/

/-- A heading candidate `(section_id, title, page)` as accumulated in
`findings` (parse_sections.py `find_headings`). -/
structure Heading where
  sid : String
  title : String
  page : Int
deriving DecidableEq, Repr

/-- The sort key ordering of parse_sections.py line 172:
`key=lambda t: (list(map(int, t[0].split('.'))), t[2])`, Python tuples
compared lexicographically. -/
def findingsRel (a b : Heading × List Int) : Prop :=
  a.2 < b.2 ∨ (a.2 = b.2 ∧ a.1.page ≤ b.1.page)

instance : DecidableRel findingsRel := fun a b => by
  unfold findingsRel
  infer_instance

instance : IsTotal (Heading × List Int) findingsRel := by
  constructor
  intro a b
  rcases lt_trichotomy a.2 b.2 with h | h | h
  · exact Or.inl (Or.inl h)
  · rcases le_total a.1.page b.1.page with hp | hp
    · exact Or.inl (Or.inr ⟨h, hp⟩)
    · exact Or.inr (Or.inr ⟨h.symm, hp⟩)
  · exact Or.inr (Or.inl h)

instance : IsTrans (Heading × List Int) findingsRel := by
  constructor
  intro a b c hab hbc
  rcases hab with hab | ⟨hab, hab2⟩
  · rcases hbc with hbc | ⟨hbc, _⟩
    · exact Or.inl (hab.trans hbc)
    · exact Or.inl (hbc ▸ hab)
  · rcases hbc with hbc | ⟨hbc, hbc2⟩
    · exact Or.inl (hab ▸ hbc)
    · exact Or.inr ⟨hab.trans hbc, hab2.trans hbc2⟩

/-- Decorate every finding with its numeric key, as Python's
decorate-sort-undecorate does; `none` models the `ValueError` raised by
`int` on a non-numeric id component. -/
def decorateFindings : List Heading → Option (List (Heading × List Int))
  | [] => some []
  | h :: t =>
    match numeric_key h.sid, decorateFindings t with
    | some k, some rest => some ((h, k) :: rest)
    | _, _ => none

/-- The `seen`-set dedup loop of parse_sections.py lines 168-177: keep the
first occurrence of every section id. -/
def dedupFirstBySid (seen : List String) : List Heading → List Heading
  | [] => []
  | h :: t =>
    if h.sid ∈ seen then dedupFirstBySid seen t
    else h :: dedupFirstBySid (h.sid :: seen) t

/-- The dedup-and-sort stage of `find_headings` (parse_sections.py lines
167-179): sort candidates by `(numeric_key(sid), page)`, then keep the
first occurrence of each section id. -/
def dedup_headings (findings : List Heading) : Option (List Heading) :=
  (decorateFindings findings).map fun kl =>
    dedupFirstBySid [] ((kl.insertionSort findingsRel).map Prod.fst)

/-! ### validate_and_report.py: reconciliation -/

/-- Python string comparison: code-point lexicographic order, modelled on
the underlying character lists. -/
def pyStrLe (a b : String) : Prop := a.toList ≤ b.toList

instance : DecidableRel pyStrLe := fun a b =>
  (inferInstance : Decidable (a.toList ≤ b.toList))

instance : IsTotal String pyStrLe := ⟨fun a b => le_total a.toList b.toList⟩

instance : IsTrans String pyStrLe := ⟨fun a b c hab hbc => le_trans hab hbc⟩

/-- First-occurrence dedup for strings (the element set of a Python `set`
built by insertion). -/
def dedupFirstStr (seen : List String) : List String → List String
  | [] => []
  | s :: t =>
    if s ∈ seen then dedupFirstStr seen t
    else s :: dedupFirstStr (s :: seen) t

/-- `find_missing_and_extra_sections` (validate_and_report.py lines 86-96):
`missing = sorted(list(set(toc_ids) - set(spec_ids)))` and
`extra = sorted(list(set(spec_ids) - set(toc_ids)))`; Python `sorted` on
strings is code-point lexicographic. -/
def find_missing_and_extra_sections (toc_ids spec_ids : List String) :
    List String × List String :=
  ((dedupFirstStr []
      (toc_ids.filter fun s => decide (s ∉ spec_ids))).insertionSort pyStrLe,
   (dedupFirstStr []
      (spec_ids.filter fun s => decide (s ∉ toc_ids))).insertionSort pyStrLe)

/-- The index assigned to `sid` by
`{sid: i for i, sid in enumerate(spec_ids)}` (validate_and_report.py
line 101): the index of the last occurrence, later duplicates overwriting
earlier ones. -/
def last_index_of (l : List String) (sid : String) : Option Nat :=
  l.enum.foldl (fun acc p => if p.2 = sid then some p.1 else acc) none

/-- The walk of `find_order_mismatches` (validate_and_report.py lines
103-111): `last` is the running `last_index`, updated to the current id's
index after every common id, flagged or not. -/
def order_loop (spec_ids : List String) (last : Int) :
    List String → List String
  | [] => []
  | sid :: t =>
    match last_index_of spec_ids sid with
    | some i =>
      if (i : Int) < last then sid :: order_loop spec_ids (i : Int) t
      else order_loop spec_ids (i : Int) t
    | none => order_loop spec_ids last t

/-- `find_order_mismatches` (validate_and_report.py lines 99-112). -/
def find_order_mismatches (toc_ids spec_ids : List String) : List String :=
  order_loop spec_ids (-1) toc_ids

/-- Modelled from the spec (amended reading): the ToC ids restricted to
those present in `spec_ids`, each paired with its section index. -/
def commonIndexed (toc_ids spec_ids : List String) : List (String × Int) :=
  toc_ids.filterMap fun sid =>
    (last_index_of spec_ids sid).map fun (i : Nat) => (sid, (i : Int))

/-- Modelled from the spec (amended reading): walk the common subsequence
and flag an id exactly when its index is below the index of the
immediately preceding common id (initially −1). -/
def flagWalk (last : Int) : List (String × Int) → List String
  | [] => []
  | p :: t =>
    if p.2 < last then p.1 :: flagWalk p.2 t else flagWalk p.2 t

/-- The parent grouping key of `group_sections_by_parent`
(validate_and_report.py lines 140-142). -/
def parentKey (sid : String) : String :=
  if '.' ∈ sid.toList then String.mk (joinDots (splitOnDot sid.toList).dropLast)
  else "<root>"

/-- `group_sections_by_parent` (validate_and_report.py lines 136-145): a
dict keyed by parent in first-insertion order, each key holding its
children in list order. -/
def group_sections_by_parent (section_ids : List String) :
    List (String × List String) :=
  (dedupFirstStr [] (section_ids.map parentKey)).map fun p =>
    (p, section_ids.filter fun sid => decide (parentKey sid = p))

/-- `get_numeric_last_component` (validate_and_report.py lines 148-153):
`int` of the last dot component, `-1` on `ValueError` or `IndexError`. -/
def get_numeric_last_component (section_id : String) : Int :=
  match (splitOnDot section_id.toList).getLast? with
  | some comp =>
    match pyInt comp with
    | some n => n
    | none => -1
  | none => -1

/-- The sibling sort key ordering of validate_and_report.py line 178. -/
def lastCompLe (a b : String) : Prop :=
  get_numeric_last_component a ≤ get_numeric_last_component b

instance : DecidableRel lastCompLe := fun a b =>
  (inferInstance : Decidable (_ ≤ _))

instance : IsTotal String lastCompLe := ⟨fun a b => Int.le_total _ _⟩

instance : IsTrans String lastCompLe := ⟨fun a b c hab hbc => le_trans hab hbc⟩

/-- The same-depth restriction of `process_parent_group`
(validate_and_report.py lines 170-172). -/
def sameDepthChildren (children : List String) : List String :=
  let depth := match children.head? with
    | some c => (splitOnDot c.toList).length
    | none => 0
  children.filter fun c => decide ((splitOnDot c.toList).length = depth)

/-- The `nums` list of `process_parent_group` (validate_and_report.py lines
177-186): numeric last components of the sorted same-depth children,
restricted to non-negative values (the `-1` sentinel is dropped). -/
def siblingNums (children : List String) : List Int :=
  (((sameDepthChildren children).insertionSort lastCompLe).map
      get_numeric_last_component).filter fun n => decide (0 ≤ n)

/-- Python `range(a, b + 1)` as a list of integers. -/
def intRangeIncl (a b : Int) : List Int :=
  (List.range (b + 1 - a).toNat).map fun (k : Nat) => a + (k : Int)

/-- `find_missing_numbers_in_sequence` (validate_and_report.py lines
156-162): the integers in `range(nums[0], nums[-1] + 1)` absent from
`nums`. -/
def find_missing_numbers_in_sequence : List Int → List Int
  | [] => []
  | a :: t =>
    (intRangeIncl a ((a :: t).getLastD a)).filter fun n => decide (n ∉ a :: t)

/-- Rendering of a missing sibling number back into a dotted id
(validate_and_report.py lines 195-198). -/
def renderGapId (parent : String) (n : Int) : String :=
  if parent = "<root>" then toString n else parent ++ "." ++ toString n

/-- `process_parent_group` (validate_and_report.py lines 165-208). -/
def process_parent_group (parent : String) (children : List String) :
    Option (String × String) :=
  if children.length < 2 then none
  else if (sameDepthChildren children).length < 2 then none
  else if (siblingNums children).isEmpty then none
  else if (find_missing_numbers_in_sequence (siblingNums children)).isEmpty then
    none
  else
    some (if parent = "<root>" then "<top-level>" else parent,
      String.intercalate ", "
        ((find_missing_numbers_in_sequence (siblingNums children)).map
          (renderGapId parent)))

/-- `detect_gaps` (validate_and_report.py lines 211-221). -/
def detect_gaps (section_ids : List String) : List (String × String) :=
  (group_sections_by_parent section_ids).filterMap fun pc =>
    process_parent_group pc.1 pc.2

/-! ### parse_sections.py: `build_sections` and the fallback selection -/

/-- A section record (base_models.py `SectionEntry`). -/
structure SectionEntry where
  doc_title : String
  section_id : String
  title : String
  page : Int
  level : Nat
  parent_id : Option String
  full_path : String
  content : String
  tags : List String
deriving DecidableEq, Repr

/-- The clipping of parse_sections.py lines 267-268:
`max(1, min(x, num_pages))`. -/
def clipPage (num_pages : Nat) (x : Int) : Int :=
  max 1 (min x (num_pages : Int))

/-- The page range of one heading (parse_sections.py lines 259-268):
`page_end = max(page_start, next_page - 1)` when a heading follows,
`num_pages` for the last heading; both ends then clipped. -/
def section_range (num_pages : Nat) (page_start : Int)
    (next_page : Option Int) : Int × Int :=
  let pe : Int := match next_page with
    | some np => max page_start (np - 1)
    | none => (num_pages : Int)
  (clipPage num_pages page_start, clipPage num_pages pe)

/-- `pages[page_start - 1 : page_end]` (parse_sections.py line 271), with
both bounds non-negative after clipping. -/
def slicePages (pages : List String) (r : Int × Int) : List String :=
  (pages.drop (r.1 - 1).toNat).take (r.2 - (r.1 - 1)).toNat

/-- `("\n\n".join(content_pages)).strip()` (parse_sections.py line 272). -/
def joinContent (pagesSlice : List String) : String :=
  String.mk (pyStrip isPySpace (String.intercalate "\n\n" pagesSlice).toList)

/-- The sort key ordering of parse_sections.py line 257:
`key=lambda h: (h[2], numeric_key(h[0]))`. -/
def buildRel (a b : Heading × List Int) : Prop :=
  a.1.page < b.1.page ∨ (a.1.page = b.1.page ∧ a.2 ≤ b.2)

instance : DecidableRel buildRel := fun a b => by
  unfold buildRel
  infer_instance

instance : IsTotal (Heading × List Int) buildRel := by
  constructor
  intro a b
  rcases lt_trichotomy a.1.page b.1.page with h | h | h
  · exact Or.inl (Or.inl h)
  · rcases le_total a.2 b.2 with hp | hp
    · exact Or.inl (Or.inr ⟨h, hp⟩)
    · exact Or.inr (Or.inr ⟨h.symm, hp⟩)
  · exact Or.inr (Or.inl h)

instance : IsTrans (Heading × List Int) buildRel := by
  constructor
  intro a b c hab hbc
  rcases hab with hab | ⟨hab, hab2⟩
  · rcases hbc with hbc | ⟨hbc, _⟩
    · exact Or.inl (hab.trans hbc)
    · exact Or.inl (hbc ▸ hab)
  · rcases hbc with hbc | ⟨hbc, hbc2⟩
    · exact Or.inl (hab ▸ hbc)
    · exact Or.inr ⟨hab.trans hbc, hab2.trans hbc2⟩

/-- The record built for one heading (parse_sections.py lines 259-289);
`level` and `parent_id` are the inline re-derivations of lines 274-275,
identical to `infer_parent_id`. -/
def mkSectionEntry (doc_title : String) (pages : List String) (h : Heading)
    (next_page : Option Int) : SectionEntry :=
  let r := section_range pages.length h.page next_page
  { doc_title := doc_title
    section_id := h.sid
    title := h.title
    page := r.1
    level := h.sid.toList.count '.' + 1
    parent_id := infer_parent_id h.sid
    full_path := h.sid ++ " " ++ h.title
    content := joinContent (slicePages pages r)
    tags := [] }

/-- The per-heading loop of `build_sections` over the sorted heading list:
`next_page` is the page of the directly following sorted heading. -/
def build_loop (doc_title : String) (pages : List String) :
    List (Heading × List Int) → List SectionEntry
  | [] => []
  | (h, _) :: rest =>
    mkSectionEntry doc_title pages h (rest.head?.map fun p => p.1.page) ::
      build_loop doc_title pages rest

/-- The key-decorated, sorted heading list of parse_sections.py line 257;
`none` models the `ValueError` from `int` on a non-numeric id component. -/
def sort_headings (headings : List Heading) :
    Option (List (Heading × List Int)) :=
  (decorateFindings headings).map fun kl => kl.insertionSort buildRel

/-- `build_sections` (parse_sections.py lines 238-290). -/
def build_sections (pages : List String) (headings : List Heading)
    (doc_title : String) : Option (List SectionEntry) :=
  (sort_headings headings).map (build_loop doc_title pages)

/-- The structured-vs-page-fallback selection of `main`
(parse_sections.py lines 330-344). -/
def select_sections (structured page_based : List SectionEntry) :
    List SectionEntry :=
  if structured.length < 100 then
    if page_based.length > structured.length * 2 then page_based
    else structured
  else structured

/-- A sample section record used for concrete selection scenarios. -/
def sampleSection : SectionEntry :=
  { doc_title := "d", section_id := "1", title := "t", page := 1, level := 1,
    parent_id := none, full_path := "1 t", content := "c", tags := [] }


/-! ### Lemmas on the normal form of titles -/

theorem noAdjPair_cons {p : Char → Bool} {a : Char} {l : List Char} :
    noAdjPair p (a :: l) = true ↔
      (noAdjPair p l = true ∧ ∀ b, l.head? = some b → (p a && p b) = false) := by
  cases l with
  | nil => simp [noAdjPair]
  | cons b t =>
    simp only [noAdjPair, Bool.and_eq_true, Bool.not_eq_true']
    constructor
    · rintro ⟨h1, h2⟩
      refine ⟨h2, fun c hc => ?_⟩
      have hbc : b = c := by simpa using hc
      subst hbc
      simpa using h1
    · rintro ⟨h1, h2⟩
      exact ⟨h2 b rfl, h1⟩

theorem noAdjPair_tail {p : Char → Bool} {a : Char} {l : List Char}
    (h : noAdjPair p (a :: l) = true) : noAdjPair p l = true :=
  (noAdjPair_cons.mp h).1

theorem sub_dot_head_false {l : List Char} (hne : l.head? ≠ some '.') :
    ∀ b, (sub_dot_leaders_aux false l).head? = some b → isDot b = false := by
  intro b hb
  cases l with
  | nil => simp [sub_dot_leaders_aux] at hb
  | cons d r =>
    have hd : ¬ d = '.' := fun h => hne (by simp [h])
    simp only [sub_dot_leaders_aux, if_neg hd, List.head?_cons, Option.some.injEq] at hb
    subst hb
    simpa [isDot] using hd

theorem bool_false_of_not_true {b : Bool} (h : ¬ b = true) : b = false := by
  cases b
  · rfl
  · exact absurd rfl h

theorem sub_dot_noAdj : ∀ (fl : Bool) (l : List Char),
    noAdjPair isDot (sub_dot_leaders_aux fl l) = true := by
  intro fl l
  induction fl, l using sub_dot_leaders_aux.induct with
  | case1 fl => simp [sub_dot_leaders_aux, noAdjPair]
  | case2 rest ih =>
    simpa [sub_dot_leaders_aux] using ih
  | case3 c rest hc ih =>
    simp only [sub_dot_leaders_aux, if_neg hc]
    exact noAdjPair_cons.mpr ⟨ih, fun b _ => by simp [isDot, hc]⟩
  | case4 rest hh ih =>
    simp only [sub_dot_leaders_aux, if_pos rfl, if_pos hh]
    exact noAdjPair_cons.mpr ⟨ih, fun b _ => by simp [isDot]⟩
  | case5 rest hh ih =>
    simp only [sub_dot_leaders_aux, if_pos rfl, if_neg hh]
    refine noAdjPair_cons.mpr ⟨ih, fun b hb => ?_⟩
    have := sub_dot_head_false (l := rest) hh b hb
    simp [this]
  | case6 c rest hc ih =>
    simp only [sub_dot_leaders_aux, if_neg hc]
    exact noAdjPair_cons.mpr ⟨ih, fun b _ => by simp [isDot, hc]⟩

theorem sub_dot_id : ∀ {l : List Char}, noAdjPair isDot l = true →
    sub_dot_leaders_aux false l = l := by
  intro l
  induction l with
  | nil => intro _; rfl
  | cons c rest ih =>
    intro h
    obtain ⟨htail, hhead⟩ := noAdjPair_cons.mp h
    by_cases hc : c = '.'
    · have hne : rest.head? ≠ some '.' := by
        intro hr
        have := hhead '.' hr
        simp [isDot, hc] at this
      simp [sub_dot_leaders_aux, hc, if_neg hne, ih htail]
    · simp [sub_dot_leaders_aux, hc, ih htail]

theorem sub_ws_true_head : ∀ (l : List Char) (b : Char),
    (sub_whitespace_aux true l).head? = some b → isPySpace b = false := by
  intro l
  induction l with
  | nil => intro b hb; simp [sub_whitespace_aux] at hb
  | cons c r ih =>
    intro b hb
    by_cases hc : isPySpace c = true
    · exact ih b (by simpa [sub_whitespace_aux, hc] using hb)
    · have hb' : c = b := by
        simpa [sub_whitespace_aux, hc] using hb
      subst hb'
      exact bool_false_of_not_true hc

theorem sub_ws_false_head : ∀ (l : List Char) (b : Char),
    (sub_whitespace_aux false l).head? = some b → b = ' ' ∨ l.head? = some b := by
  intro l b hb
  cases l with
  | nil => simp [sub_whitespace_aux] at hb
  | cons c r =>
    by_cases hc : isPySpace c = true
    · left
      have : ' ' = b := by simpa [sub_whitespace_aux, hc] using hb
      exact this.symm
    · right
      have : c = b := by simpa [sub_whitespace_aux, hc] using hb
      simp [this]

theorem sub_ws_wsOnly : ∀ (fl : Bool) (l : List Char),
    wsOnlySpace (sub_whitespace_aux fl l) = true := by
  intro fl l
  induction fl, l using sub_whitespace_aux.induct with
  | case1 fl => simp [sub_whitespace_aux, wsOnlySpace]
  | case2 c rest hc ih => simpa [sub_whitespace_aux, hc] using ih
  | case3 c rest hc ih =>
    simp only [sub_whitespace_aux, if_neg hc]
    simp only [wsOnlySpace, List.all_cons, Bool.and_eq_true] at ih ⊢
    exact ⟨by simp [bool_false_of_not_true hc], ih⟩
  | case4 c rest hc ih =>
    simp only [sub_whitespace_aux, if_pos hc]
    simp only [wsOnlySpace, List.all_cons, Bool.and_eq_true] at ih ⊢
    exact ⟨by simp, ih⟩
  | case5 c rest hc ih =>
    simp only [sub_whitespace_aux, if_neg hc]
    simp only [wsOnlySpace, List.all_cons, Bool.and_eq_true] at ih ⊢
    exact ⟨by simp [hc], ih⟩

theorem sub_ws_noAdjWs : ∀ (fl : Bool) (l : List Char),
    noAdjPair isPySpace (sub_whitespace_aux fl l) = true := by
  intro fl l
  induction fl, l using sub_whitespace_aux.induct with
  | case1 fl => simp [sub_whitespace_aux, noAdjPair]
  | case2 c rest hc ih => simpa [sub_whitespace_aux, hc] using ih
  | case3 c rest hc ih =>
    simp only [sub_whitespace_aux, if_neg hc]
    exact noAdjPair_cons.mpr ⟨ih, fun b _ => by simp [hc]⟩
  | case4 c rest hc ih =>
    simp only [sub_whitespace_aux, if_pos hc]
    refine noAdjPair_cons.mpr ⟨ih, fun b hb => ?_⟩
    simp [sub_ws_true_head rest b hb]
  | case5 c rest hc ih =>
    simp only [sub_whitespace_aux, if_neg hc]
    exact noAdjPair_cons.mpr ⟨ih, fun b _ => by simp [hc]⟩

theorem sub_ws_skip_eq {l : List Char}
    (h : ∀ b, l.head? = some b → isPySpace b = false) :
    sub_whitespace_aux true l = sub_whitespace_aux false l := by
  cases l with
  | nil => rfl
  | cons c r =>
    have hc : isPySpace c = false := h c rfl
    simp [sub_whitespace_aux, hc]

theorem sub_ws_id : ∀ {l : List Char}, wsOnlySpace l = true →
    noAdjPair isPySpace l = true → sub_whitespace_aux false l = l := by
  intro l
  induction l with
  | nil => intro _ _; rfl
  | cons c rest ih =>
    intro h1 h2
    simp only [wsOnlySpace, List.all_cons, Bool.and_eq_true] at h1
    obtain ⟨htail, hhead⟩ := noAdjPair_cons.mp h2
    by_cases hc : isPySpace c = true
    · have hsp : c = ' ' := by
        rcases Bool.or_eq_true _ _ |>.mp h1.1 with h | h
        · simp [hc] at h
        · simpa using h
      have hresthead : ∀ b, rest.head? = some b → isPySpace b = false := by
        intro b hb
        have := hhead b hb
        simpa [hc] using this
      rw [sub_whitespace_aux, if_pos hc, sub_ws_skip_eq hresthead,
        ih (by simpa [wsOnlySpace] using h1.2) htail, hsp]
    · rw [sub_whitespace_aux, if_neg hc,
        ih (by simpa [wsOnlySpace] using h1.2) htail]

theorem sub_ws_noAdjDot : ∀ (fl : Bool) (l : List Char),
    noAdjPair isDot l = true → noAdjPair isDot (sub_whitespace_aux fl l) = true := by
  intro fl l
  induction fl, l using sub_whitespace_aux.induct with
  | case1 fl => intro _; simp [sub_whitespace_aux, noAdjPair]
  | case2 c rest hc ih =>
    intro h
    simpa [sub_whitespace_aux, hc] using ih (noAdjPair_tail h)
  | case3 c rest hc ih =>
    intro h
    obtain ⟨htail, hhead⟩ := noAdjPair_cons.mp h
    simp only [sub_whitespace_aux, if_neg hc]
    refine noAdjPair_cons.mpr ⟨ih htail, fun b hb => ?_⟩
    rcases sub_ws_false_head rest b hb with hb' | hb'
    · simp [hb', isDot]
    · simpa using hhead b hb'
  | case4 c rest hc ih =>
    intro h
    simp only [sub_whitespace_aux, if_pos hc]
    refine noAdjPair_cons.mpr ⟨ih (noAdjPair_tail h), fun b _ => ?_⟩
    simp [isDot]
  | case5 c rest hc ih =>
    intro h
    obtain ⟨htail, hhead⟩ := noAdjPair_cons.mp h
    simp only [sub_whitespace_aux, if_neg hc]
    refine noAdjPair_cons.mpr ⟨ih htail, fun b hb => ?_⟩
    rcases sub_ws_false_head rest b hb with hb' | hb'
    · simp [hb', isDot]
    · simpa using hhead b hb'

theorem noAdjPair_dropWhile {p q : Char → Bool} : ∀ {l : List Char},
    noAdjPair p l = true → noAdjPair p (l.dropWhile q) = true := by
  intro l
  induction l with
  | nil => intro _; simp [noAdjPair]
  | cons c r ih =>
    intro h
    by_cases hc : q c = true
    · simpa [List.dropWhile_cons, hc] using ih (noAdjPair_tail h)
    · simpa [List.dropWhile_cons, hc] using h

theorem noAdjPair_append_last {p : Char → Bool} : ∀ (l : List Char) (a : Char),
    noAdjPair p (l ++ [a]) =
      (noAdjPair p l &&
        match l.getLast? with | some b => !(p b && p a) | none => true) := by
  intro l
  induction l with
  | nil => intro a; simp [noAdjPair]
  | cons x t ih =>
    intro a
    cases t with
    | nil => simp [noAdjPair]
    | cons y t2 =>
      have := ih a
      simp only [List.cons_append, noAdjPair, List.getLast?_cons_cons,
        List.append_eq] at this ⊢
      rw [this, Bool.and_assoc]

theorem noAdjPair_reverse {p : Char → Bool} : ∀ (l : List Char),
    noAdjPair p l.reverse = noAdjPair p l := by
  intro l
  induction l with
  | nil => rfl
  | cons c t ih =>
    cases t with
    | nil => rfl
    | cons d t2 =>
      rw [List.reverse_cons, noAdjPair_append_last, ih]
      have hlast : (d :: t2).reverse.getLast? = some d := by
        rw [List.getLast?_reverse]
        rfl
      simp only [List.getLast?_reverse] at hlast ⊢
      show (noAdjPair p (d :: t2) &&
          match (d :: t2).head? with | some b => !(p b && p c) | none => true) =
        noAdjPair p (c :: d :: t2)
      simp only [List.head?_cons, noAdjPair]
      rw [Bool.and_comm (p d) (p c)]
      rw [Bool.and_comm]

theorem wsOnlySpace_subset {l m : List Char} (hsub : ∀ c, c ∈ m → c ∈ l)
    (h : wsOnlySpace l = true) : wsOnlySpace m = true := by
  simp only [wsOnlySpace, List.all_eq_true] at h ⊢
  exact fun c hc => h c (hsub c hc)

theorem head?_dropWhile_false {q : Char → Bool} : ∀ {l : List Char} {b : Char},
    (l.dropWhile q).head? = some b → q b = false := by
  intro l
  induction l with
  | nil => intro b hb; simp at hb
  | cons c r ih =>
    intro b hb
    by_cases hc : q c = true
    · exact ih (by simpa [List.dropWhile_cons, hc] using hb)
    · have : c = b := by simpa [List.dropWhile_cons, hc] using hb
      subst this
      exact bool_false_of_not_true hc

theorem dropWhile_suffix_ex {q : Char → Bool} : ∀ (l : List Char),
    ∃ t, t ++ l.dropWhile q = l := by
  intro l
  induction l with
  | nil => exact ⟨[], rfl⟩
  | cons c r ih =>
    by_cases hc : q c = true
    · obtain ⟨t, ht⟩ := ih
      exact ⟨c :: t, by simp [List.dropWhile_cons, hc, ht]⟩
    · exact ⟨[], by simp [List.dropWhile_cons, hc]⟩

theorem getLast?_dropWhile_ne {q : Char → Bool} {l : List Char}
    (h : l.dropWhile q ≠ []) : (l.dropWhile q).getLast? = l.getLast? := by
  obtain ⟨t, ht⟩ := dropWhile_suffix_ex (q := q) l
  conv_rhs => rw [← ht]
  exact (List.getLast?_append_of_ne_nil t h).symm

theorem pyStrip_noAdj {p q : Char → Bool} {l : List Char}
    (h : noAdjPair p l = true) : noAdjPair p (pyStrip q l) = true := by
  unfold pyStrip
  rw [noAdjPair_reverse]
  exact noAdjPair_dropWhile (by rw [noAdjPair_reverse]; exact noAdjPair_dropWhile h)

theorem pyStrip_subset {q : Char → Bool} {l : List Char} :
    ∀ c, c ∈ pyStrip q l → c ∈ l := by
  intro c hc
  unfold pyStrip at hc
  rw [List.mem_reverse] at hc
  have h1 := (List.dropWhile_sublist (l := (l.dropWhile q).reverse) q).subset hc
  rw [List.mem_reverse] at h1
  exact (List.dropWhile_sublist (l := l) q).subset h1

theorem pyStrip_wsOnly {q : Char → Bool} {l : List Char}
    (h : wsOnlySpace l = true) : wsOnlySpace (pyStrip q l) = true :=
  wsOnlySpace_subset pyStrip_subset h

theorem pyStrip_getLast_false {q : Char → Bool} {l : List Char} {b : Char}
    (h : (pyStrip q l).getLast? = some b) : q b = false := by
  unfold pyStrip at h
  rw [List.getLast?_reverse] at h
  exact head?_dropWhile_false h

theorem pyStrip_head_false {q : Char → Bool} {l : List Char} {b : Char}
    (h : (pyStrip q l).head? = some b) : q b = false := by
  unfold pyStrip at h
  rw [List.head?_reverse] at h
  have hne : ((l.dropWhile q).reverse.dropWhile q) ≠ [] := by
    intro hnil
    rw [hnil] at h
    simp at h
  rw [getLast?_dropWhile_ne hne, List.getLast?_reverse] at h
  exact head?_dropWhile_false h

theorem pyStrip_id {q : Char → Bool} {l : List Char}
    (h1 : ∀ b, l.head? = some b → q b = false)
    (h2 : ∀ b, l.getLast? = some b → q b = false) : pyStrip q l = l := by
  have hfront : l.dropWhile q = l := by
    cases l with
    | nil => rfl
    | cons c r => simp [List.dropWhile_cons, h1 c rfl]
  unfold pyStrip
  rw [hfront]
  have hback : l.reverse.dropWhile q = l.reverse := by
    cases hr : l.reverse with
    | nil => rfl
    | cons c r =>
      have hc : l.getLast? = some c := by
        rw [← List.head?_reverse, hr]
        rfl
      simp [List.dropWhile_cons, h2 c hc]
  rw [hback, List.reverse_reverse]

theorem optNot_of_false {p : Char → Bool} {o : Option Char}
    (h : ∀ b, o = some b → p b = false) : optNot p o = true := by
  cases o with
  | none => rfl
  | some c => simp [optNot, h c rfl]

theorem optNot_some_false {p : Char → Bool} {o : Option Char} {b : Char}
    (h : optNot p o = true) (hb : o = some b) : p b = false := by
  subst hb
  simpa [optNot] using h

theorem mem_of_head?_some {l : List Char} {b : Char} (h : l.head? = some b) :
    b ∈ l := by
  cases l with
  | nil => simp at h
  | cons c t =>
    have : c = b := by simpa using h
    simp [this.symm]

theorem mem_of_getLast?_some {l : List Char} {b : Char} (h : l.getLast? = some b) :
    b ∈ l := by
  rw [← List.head?_reverse] at h
  rw [← List.mem_reverse]
  exact mem_of_head?_some h

/-- Every title output by `normalize_title` is in normal form: no adjacent
dots, no adjacent whitespace, all whitespace plain spaces, and no space or
dot at either end. -/
theorem normalize_chars_normalized (l : List Char) :
    titleNormalized (normalize_title_chars l) = true := by
  unfold normalize_title_chars
  set m2 := sub_whitespace (sub_dot_leaders (pyStrip isPySpace l)) with hm2
  have hdot : noAdjPair isDot m2 = true := by
    rw [hm2]
    exact sub_ws_noAdjDot false _ (sub_dot_noAdj false _)
  have hws : noAdjPair isPySpace m2 = true := sub_ws_noAdjWs false _
  have honly : wsOnlySpace m2 = true := sub_ws_wsOnly false _
  have b4 : boundaryOk (pyStrip isDotOrSpace m2) = true := by
    unfold boundaryOk
    rw [optNot_of_false (fun b hb => pyStrip_head_false hb),
      optNot_of_false (fun b hb => pyStrip_getLast_false hb)]
    rfl
  unfold titleNormalized
  rw [pyStrip_noAdj hdot, pyStrip_noAdj hws, pyStrip_wsOnly honly, b4]
  rfl

/-- `normalize_title` is the identity on titles already in normal form. -/
theorem normalize_chars_of_normalized {l : List Char}
    (h : titleNormalized l = true) : normalize_title_chars l = l := by
  unfold titleNormalized at h
  simp only [Bool.and_eq_true] at h
  obtain ⟨⟨⟨hdot, hws⟩, honly⟩, hbound⟩ := h
  unfold boundaryOk at hbound
  simp only [Bool.and_eq_true] at hbound
  obtain ⟨hbh, hbl⟩ := hbound
  have hheadd : ∀ b, l.head? = some b → isDotOrSpace b = false :=
    fun b hb => optNot_some_false hbh hb
  have hlastd : ∀ b, l.getLast? = some b → isDotOrSpace b = false :=
    fun b hb => optNot_some_false hbl hb
  have hnotspace : ∀ b, b ∈ l → isDotOrSpace b = false → isPySpace b = false := by
    intro b hmem hds
    have hall := (List.all_eq_true.mp honly) b hmem
    rcases Bool.or_eq_true _ _ |>.mp hall with hcase | hcase
    · simpa using hcase
    · exfalso
      have hbsp : b = ' ' := by simpa using hcase
      rw [hbsp] at hds
      simp [isDotOrSpace] at hds
  have hheadns : ∀ b, l.head? = some b → isPySpace b = false :=
    fun b hb => hnotspace b (mem_of_head?_some hb) (hheadd b hb)
  have hlastns : ∀ b, l.getLast? = some b → isPySpace b = false :=
    fun b hb => hnotspace b (mem_of_getLast?_some hb) (hlastd b hb)
  unfold normalize_title_chars
  rw [pyStrip_id hheadns hlastns]
  show pyStrip isDotOrSpace (sub_whitespace_aux false (sub_dot_leaders_aux false l)) = l
  rw [sub_dot_id hdot, sub_ws_id honly hws, pyStrip_id hheadd hlastd]

theorem normalize_title_chars_idem (l : List Char) :
    normalize_title_chars (normalize_title_chars l) = normalize_title_chars l :=
  normalize_chars_of_normalized (normalize_chars_normalized l)

theorem decorateFindings_map_fst : ∀ {l : List Heading}
    {kl : List (Heading × List Int)}, decorateFindings l = some kl →
    kl.map Prod.fst = l := by
  intro l
  induction l with
  | nil =>
    intro kl h
    simp only [decorateFindings, Option.some.injEq] at h
    simp [← h]
  | cons x t ih =>
    intro kl h
    rw [decorateFindings] at h
    rcases hk : numeric_key x.sid with _ | k <;> rw [hk] at h
    · simp at h
    · rcases hr : decorateFindings t with _ | rest <;> rw [hr] at h
      · simp at h
      · simp only [Option.some.injEq] at h
        subst h
        simp only [List.map_cons]
        rw [ih hr]

theorem decorateFindings_key : ∀ {l : List Heading}
    {kl : List (Heading × List Int)}, decorateFindings l = some kl →
    ∀ p ∈ kl, numeric_key p.1.sid = some p.2 := by
  intro l
  induction l with
  | nil =>
    intro kl h p hp
    simp only [decorateFindings, Option.some.injEq] at h
    subst h
    simp at hp
  | cons x t ih =>
    intro kl h p hp
    rw [decorateFindings] at h
    rcases hk : numeric_key x.sid with _ | k <;> rw [hk] at h
    · simp at h
    · rcases hr : decorateFindings t with _ | rest <;> rw [hr] at h
      · simp at h
      · simp only [Option.some.injEq] at h
        subst h
        rcases List.mem_cons.mp hp with hp | hp
        · subst hp
          exact hk
        · exact ih hr p hp

theorem dedupFirstBySid_not_seen : ∀ {seen : List String} {l : List Heading}
    {e : Heading}, e ∈ dedupFirstBySid seen l → e.sid ∉ seen := by
  intro seen l
  induction l generalizing seen with
  | nil => intro e he; simp [dedupFirstBySid] at he
  | cons h t ih =>
    intro e he
    by_cases hs : h.sid ∈ seen
    · exact ih (by simpa [dedupFirstBySid, hs] using he)
    · rw [dedupFirstBySid, if_neg hs] at he
      rcases List.mem_cons.mp he with he | he
      · subst he; exact hs
      · intro hmem
        exact ih he (List.mem_cons_of_mem _ hmem)

theorem dedupFirstBySid_first : ∀ {seen : List String} {l : List Heading}
    {e : Heading}, e ∈ dedupFirstBySid seen l →
    ∃ pre post, l = pre ++ e :: post ∧ ∀ f ∈ pre, f.sid ≠ e.sid := by
  intro seen l
  induction l generalizing seen with
  | nil => intro e he; simp [dedupFirstBySid] at he
  | cons h t ih =>
    intro e he
    by_cases hs : h.sid ∈ seen
    · obtain ⟨pre, post, heq, hpre⟩ := ih (by simpa [dedupFirstBySid, hs] using he)
      have hesid : e.sid ∉ seen := dedupFirstBySid_not_seen
        (by simpa [dedupFirstBySid, hs] using he)
      refine ⟨h :: pre, post, by simp [heq], ?_⟩
      intro f hf
      rcases List.mem_cons.mp hf with hf | hf
      · subst hf
        intro hcontra
        exact hesid (hcontra ▸ hs)
      · exact hpre f hf
    · rw [dedupFirstBySid, if_neg hs] at he
      rcases List.mem_cons.mp he with he | he
      · exact ⟨[], t, by simp [he], by simp⟩
      · obtain ⟨pre, post, heq, hpre⟩ := ih he
        have hesid : e.sid ∉ h.sid :: seen := dedupFirstBySid_not_seen he
        refine ⟨h :: pre, post, by simp [heq], ?_⟩
        intro f hf
        rcases List.mem_cons.mp hf with hf | hf
        · subst hf
          intro hcontra
          exact hesid (by simp [hcontra])
        · exact hpre f hf

theorem dedupFirstBySid_subset : ∀ {seen : List String} {l : List Heading}
    {e : Heading}, e ∈ dedupFirstBySid seen l → e ∈ l := by
  intro seen l e he
  obtain ⟨pre, post, heq, _⟩ := dedupFirstBySid_first he
  rw [heq]
  simp

theorem dedupFirstBySid_sid_mem : ∀ {seen : List String} {l : List Heading}
    {s : String}, s ∈ l.map Heading.sid → s ∉ seen →
    s ∈ (dedupFirstBySid seen l).map Heading.sid := by
  intro seen l
  induction l generalizing seen with
  | nil => intro s hs _; simp at hs
  | cons h t ih =>
    intro s hs hnot
    rw [List.map_cons] at hs
    rcases List.mem_cons.mp hs with hs1 | hs1
    · subst hs1
      by_cases hmem : h.sid ∈ seen
      · exact absurd hmem hnot
      · rw [dedupFirstBySid, if_neg hmem, List.map_cons]
        exact List.mem_cons_self _ _
    · by_cases hmem : h.sid ∈ seen
      · rw [dedupFirstBySid, if_pos hmem]
        exact ih hs1 hnot
      · rw [dedupFirstBySid, if_neg hmem, List.map_cons]
        by_cases hsh : s = h.sid
        · rw [hsh]
          exact List.mem_cons_self _ _
        · refine List.mem_cons_of_mem _ (ih hs1 ?_)
          intro hc
          rcases List.mem_cons.mp hc with hc | hc
          · exact hsh hc
          · exact hnot hc

theorem dedupFirstBySid_nodup : ∀ {seen : List String} {l : List Heading},
    ((dedupFirstBySid seen l).map Heading.sid).Nodup := by
  intro seen l
  induction l generalizing seen with
  | nil => simp [dedupFirstBySid]
  | cons h t ih =>
    by_cases hs : h.sid ∈ seen
    · rw [dedupFirstBySid, if_pos hs]; exact ih
    · rw [dedupFirstBySid, if_neg hs]
      refine List.nodup_cons.mpr ⟨?_, ih⟩
      intro hmem
      obtain ⟨e, he, hesid⟩ := List.mem_map.mp hmem
      have := dedupFirstBySid_not_seen he
      exact this (by simp [hesid])

/-- Full specification of the find_headings dedup stage: exactly one
heading per section id survives, drawn from the candidate list, and it is
one with the numerically smallest page among the candidates for that id. -/
theorem dedup_headings_spec {findings u : List Heading}
    (h : dedup_headings findings = some u) :
    (u.map Heading.sid).Nodup ∧
    (∀ s, s ∈ u.map Heading.sid ↔ s ∈ findings.map Heading.sid) ∧
    (∀ e ∈ u, e ∈ findings ∧
      ∀ f ∈ findings, f.sid = e.sid → e.page ≤ f.page) := by
  unfold dedup_headings at h
  rcases hd : decorateFindings findings with _ | kl <;> rw [hd] at h
  · simp at h
  · simp only [Option.map_some', Option.some.injEq] at h
    set sortedKl := kl.insertionSort findingsRel with hskl
    set l' := sortedKl.map Prod.fst with hl'
    have hperm : l'.Perm findings := by
      rw [hl', ← decorateFindings_map_fst hd]
      exact (List.perm_insertionSort findingsRel kl).map Prod.fst
    have hsorted : List.Pairwise findingsRel sortedKl :=
      List.sorted_insertionSort findingsRel kl
    have hkeys : ∀ p ∈ sortedKl, numeric_key p.1.sid = some p.2 := by
      intro p hp
      exact decorateFindings_key hd p
        ((List.perm_insertionSort findingsRel kl).mem_iff.mp hp)
    have hpair : List.Pairwise
        (fun a b : Heading => a.sid = b.sid → a.page ≤ b.page) l' := by
      rw [hl', List.pairwise_map]
      refine hsorted.imp_of_mem ?_
      intro a b ha hb hab hsid
      rcases hab with hab | ⟨_, hab2⟩
      · exfalso
        have hka := hkeys a ha
        have hkb := hkeys b hb
        rw [hsid] at hka
        rw [hka] at hkb
        have : a.2 = b.2 := Option.some.inj hkb
        rw [this] at hab
        exact lt_irrefl _ hab
      · exact hab2
    subst h
    refine ⟨dedupFirstBySid_nodup, ?_, ?_⟩
    · intro s
      constructor
      · intro hs
        obtain ⟨e, he, hesid⟩ := List.mem_map.mp hs
        have he' : e ∈ l' := dedupFirstBySid_subset he
        exact List.mem_map.mpr ⟨e, hperm.mem_iff.mp he', hesid⟩
      · intro hs
        obtain ⟨f, hf, hfsid⟩ := List.mem_map.mp hs
        have hf' : f ∈ l' := hperm.mem_iff.mpr hf
        exact dedupFirstBySid_sid_mem (List.mem_map.mpr ⟨f, hf', hfsid⟩)
          (by simp)
    · intro e he
      have hel : e ∈ l' := dedupFirstBySid_subset he
      refine ⟨hperm.mem_iff.mp hel, ?_⟩
      intro f hf hfsid
      obtain ⟨pre, post, heq, hpre⟩ := dedupFirstBySid_first he
      have hf' : f ∈ l' := hperm.mem_iff.mpr hf
      rw [heq] at hf' hpair
      rcases List.mem_append.mp hf' with hfp | hfp
      · exact absurd hfsid (hpre f hfp)
      · rcases List.mem_cons.mp hfp with hfe | hfe
        · rw [hfe]
        · have h2 := (List.pairwise_append.mp hpair).2.1
          exact (List.pairwise_cons.mp h2).1 f hfe hfsid.symm

/-- Every entry emitted by the parse_toc match loop has a section id not in
the current seen set. -/
theorem parse_toc_loop_not_seen : ∀ {np : Nat} {dt : String}
    {seen : List String} {ms : List TocMatch} {e : TocEntry},
    e ∈ parse_toc_loop np dt seen ms → e.section_id ∉ seen := by
  intro np dt seen ms
  induction ms generalizing seen with
  | nil => intro e he; simp [parse_toc_loop] at he
  | cons m t ih =>
    intro e he
    rw [parse_toc_loop] at he
    by_cases h1 : (m.page < 1 || m.page > np) = true
    · rw [if_pos h1] at he
      exact ih he
    · rw [if_neg h1] at he
      by_cases h2 : containsYear (normalize_title m.rawTitle) = true
      · rw [if_pos h2] at he
        exact ih he
      · rw [if_neg h2] at he
        by_cases h3 : m.sid ∈ seen
        · rw [if_pos h3] at he
          exact ih he
        · rw [if_neg h3] at he
          rcases List.mem_cons.mp he with he | he
          · subst he
            exact h3
          · intro hmem
            exact ih he (List.mem_cons_of_mem _ hmem)

/-- The section ids emitted by `parse_toc_entries` are pairwise distinct. -/
theorem parse_toc_loop_nodup : ∀ {np : Nat} {dt : String}
    {seen : List String} {ms : List TocMatch},
    ((parse_toc_loop np dt seen ms).map TocEntry.section_id).Nodup := by
  intro np dt seen ms
  induction ms generalizing seen with
  | nil => simp [parse_toc_loop]
  | cons m t ih =>
    rw [parse_toc_loop]
    by_cases h1 : (m.page < 1 || m.page > np) = true
    · rw [if_pos h1]
      exact ih
    · rw [if_neg h1]
      by_cases h2 : containsYear (normalize_title m.rawTitle) = true
      · rw [if_pos h2]
        exact ih
      · rw [if_neg h2]
        by_cases h3 : m.sid ∈ seen
        · rw [if_pos h3]
          exact ih
        · rw [if_neg h3, List.map_cons]
          refine List.nodup_cons.mpr ⟨?_, ih⟩
          intro hmem
          obtain ⟨e, he, hesid⟩ := List.mem_map.mp hmem
          exact parse_toc_loop_not_seen he (by simp [hesid, mkTocEntry])

/-- Every entry of `parse_toc_entries` arises from a match that passed the
page and year filters. -/
theorem parse_toc_loop_mem : ∀ {np : Nat} {dt : String}
    {seen : List String} {ms : List TocMatch} {e : TocEntry},
    e ∈ parse_toc_loop np dt seen ms →
    ∃ m ∈ ms, tocMatchPasses np m = true ∧ e = mkTocEntry dt m := by
  intro np dt seen ms
  induction ms generalizing seen with
  | nil => intro e he; simp [parse_toc_loop] at he
  | cons m t ih =>
    intro e he
    rw [parse_toc_loop] at he
    by_cases h1 : (m.page < 1 || m.page > np) = true
    · rw [if_pos h1] at he
      obtain ⟨m2, hm2, hp, heq⟩ := ih he
      exact ⟨m2, List.mem_cons_of_mem _ hm2, hp, heq⟩
    · rw [if_neg h1] at he
      by_cases h2 : containsYear (normalize_title m.rawTitle) = true
      · rw [if_pos h2] at he
        obtain ⟨m2, hm2, hp, heq⟩ := ih he
        exact ⟨m2, List.mem_cons_of_mem _ hm2, hp, heq⟩
      · rw [if_neg h2] at he
        by_cases h3 : m.sid ∈ seen
        · rw [if_pos h3] at he
          obtain ⟨m2, hm2, hp, heq⟩ := ih he
          exact ⟨m2, List.mem_cons_of_mem _ hm2, hp, heq⟩
        · rw [if_neg h3] at he
          rcases List.mem_cons.mp he with he | he
          · refine ⟨m, List.mem_cons_self _ _, ?_, he⟩
            unfold tocMatchPasses
            rw [bool_false_of_not_true h1, bool_false_of_not_true h2]
            rfl
          · obtain ⟨m2, hm2, hp, heq⟩ := ih he
            exact ⟨m2, List.mem_cons_of_mem _ hm2, hp, heq⟩

/-- In `parse_toc_entries`, the retained candidate for a section id is the
first match in text order with that id that passes the filters. -/
theorem parse_toc_loop_first : ∀ {np : Nat} {dt : String}
    {seen : List String} {pre : List TocMatch} {m : TocMatch}
    {post : List TocMatch},
    tocMatchPasses np m = true →
    (∀ m2 ∈ pre, m2.sid = m.sid → tocMatchPasses np m2 = false) →
    m.sid ∉ seen →
    mkTocEntry dt m ∈ parse_toc_loop np dt seen (pre ++ m :: post) := by
  intro np dt seen pre m post hm hpre hseen
  induction pre generalizing seen with
  | nil =>
    unfold tocMatchPasses at hm
    rw [Bool.and_eq_true] at hm
    have hc1 : (m.page < 1 || m.page > np) = false := by
      have h := hm.1
      rwa [Bool.not_eq_true'] at h
    have hc2 : containsYear (normalize_title m.rawTitle) = false := by
      have h := hm.2
      rwa [Bool.not_eq_true'] at h
    rw [List.nil_append, parse_toc_loop,
      if_neg (by rw [hc1]; exact Bool.false_ne_true),
      if_neg (by rw [hc2]; exact Bool.false_ne_true), if_neg hseen]
    exact List.mem_cons_self _ _
  | cons m2 t ih =>
    have hpre' : ∀ m3 ∈ t, m3.sid = m.sid → tocMatchPasses np m3 = false :=
      fun m3 h3 => hpre m3 (List.mem_cons_of_mem _ h3)
    rw [List.cons_append, parse_toc_loop]
    by_cases h1 : (m2.page < 1 || m2.page > np) = true
    · rw [if_pos h1]
      exact ih hpre' hseen
    · rw [if_neg h1]
      by_cases h2 : containsYear (normalize_title m2.rawTitle) = true
      · rw [if_pos h2]
        exact ih hpre' hseen
      · rw [if_neg h2]
        have hm2pass : tocMatchPasses np m2 = true := by
          unfold tocMatchPasses
          rw [bool_false_of_not_true h1, bool_false_of_not_true h2]
          rfl
        have hne : m2.sid ≠ m.sid := by
          intro hcontra
          have := hpre m2 (List.mem_cons_self _ _) hcontra
          rw [hm2pass] at this
          exact Bool.true_eq_false ▸ (by simp at this)
        by_cases h3 : m2.sid ∈ seen
        · rw [if_pos h3]
          exact ih hpre' hseen
        · rw [if_neg h3]
          refine List.mem_cons_of_mem _ (ih hpre' ?_)
          intro hc
          rcases List.mem_cons.mp hc with hc | hc
          · exact hne hc.symm
          · exact hseen hc

/-! ### Lemmas about the reconciliation functions -/

theorem flagWalk_cons (last : Int) (p : String × Int)
    (t : List (String × Int)) :
    flagWalk last (p :: t) =
      if p.2 < last then p.1 :: flagWalk p.2 t else flagWalk p.2 t := rfl

theorem order_loop_eq_flagWalk (spec_ids : List String) :
    ∀ (toc_ids : List String) (last : Int),
    order_loop spec_ids last toc_ids =
      flagWalk last (commonIndexed toc_ids spec_ids) := by
  intro toc_ids
  induction toc_ids with
  | nil => intro last; rfl
  | cons sid t ih =>
    intro last
    cases h : last_index_of spec_ids sid with
    | none =>
      rw [order_loop, commonIndexed, List.filterMap_cons]
      simp only [h, Option.map_none']
      rw [← commonIndexed]
      exact ih last
    | some i =>
      rw [order_loop, commonIndexed, List.filterMap_cons]
      simp only [h, Option.map_some']
      rw [← commonIndexed, flagWalk_cons]
      by_cases hlt : (i : Int) < last
      · rw [if_pos hlt, if_pos hlt, ih]
      · rw [if_neg hlt, if_neg hlt, ih]

theorem dedupFirstStr_mem : ∀ {seen l : List String} {s : String},
    s ∈ dedupFirstStr seen l ↔ (s ∈ l ∧ s ∉ seen) := by
  intro seen l
  induction l generalizing seen with
  | nil => intro s; simp [dedupFirstStr]
  | cons a t ih =>
    intro s
    by_cases ha : a ∈ seen
    · rw [dedupFirstStr, if_pos ha, ih]
      constructor
      · rintro ⟨hs, hns⟩
        exact ⟨List.mem_cons_of_mem _ hs, hns⟩
      · rintro ⟨hs, hns⟩
        rcases List.mem_cons.mp hs with hs | hs
        · exact absurd (hs ▸ ha) hns
        · exact ⟨hs, hns⟩
    · rw [dedupFirstStr, if_neg ha]
      constructor
      · intro hs
        rcases List.mem_cons.mp hs with hs | hs
        · exact ⟨hs ▸ List.mem_cons_self _ _, hs ▸ ha⟩
        · obtain ⟨h1, h2⟩ := ih.mp hs
          exact ⟨List.mem_cons_of_mem _ h1,
            fun hc => h2 (List.mem_cons_of_mem _ hc)⟩
      · rintro ⟨hs, hns⟩
        by_cases hsa : s = a
        · exact hsa ▸ List.mem_cons_self _ _
        · rcases List.mem_cons.mp hs with hs | hs
          · exact absurd hs hsa
          · refine List.mem_cons_of_mem _ (ih.mpr ⟨hs, ?_⟩)
            intro hc
            rcases List.mem_cons.mp hc with hc | hc
            · exact hsa hc
            · exact hns hc

theorem dedupFirstStr_nodup : ∀ {seen l : List String},
    (dedupFirstStr seen l).Nodup := by
  intro seen l
  induction l generalizing seen with
  | nil => simp [dedupFirstStr]
  | cons a t ih =>
    by_cases ha : a ∈ seen
    · rw [dedupFirstStr, if_pos ha]; exact ih
    · rw [dedupFirstStr, if_neg ha]
      refine List.nodup_cons.mpr ⟨?_, ih⟩
      intro hmem
      exact (dedupFirstStr_mem.mp hmem).2 (List.mem_cons_self _ _)

/-- Specification of one side of `find_missing_and_extra_sections`: the
output is exactly the set difference, without duplicates, sorted by the
code-point lexicographic string order. -/
theorem missing_side_spec (from_ids other_ids : List String) :
    (∀ s, s ∈ (dedupFirstStr []
        (from_ids.filter fun s => decide (s ∉ other_ids))).insertionSort pyStrLe ↔
      (s ∈ from_ids ∧ s ∉ other_ids)) ∧
    ((dedupFirstStr []
        (from_ids.filter fun s => decide (s ∉ other_ids))).insertionSort pyStrLe).Nodup ∧
    ((dedupFirstStr []
        (from_ids.filter fun s => decide (s ∉ other_ids))).insertionSort pyStrLe).Sorted pyStrLe := by
  set base := dedupFirstStr [] (from_ids.filter fun s => decide (s ∉ other_ids))
    with hbase
  have hperm := List.perm_insertionSort pyStrLe base
  refine ⟨?_, hperm.nodup_iff.mpr dedupFirstStr_nodup,
    List.sorted_insertionSort pyStrLe base⟩
  intro s
  rw [hperm.mem_iff, hbase, dedupFirstStr_mem]
  simp only [List.mem_filter, decide_eq_true_eq, List.not_mem_nil,
    not_false_iff, and_true]

theorem siblingNums_sorted (children : List String) :
    List.Pairwise (· ≤ ·) (siblingNums children) := by
  unfold siblingNums
  refine List.Pairwise.filter _ ?_
  rw [List.pairwise_map]
  exact List.sorted_insertionSort lastCompLe (sameDepthChildren children)

theorem mem_intRangeIncl {a b n : Int} :
    n ∈ intRangeIncl a b ↔ (a ≤ n ∧ n ≤ b) := by
  unfold intRangeIncl
  constructor
  · intro hmem
    obtain ⟨k, hk, hkn⟩ := List.mem_map.mp hmem
    rw [List.mem_range] at hk
    omega
  · intro h
    refine List.mem_map.mpr ⟨(n - a).toNat, ?_, ?_⟩
    · rw [List.mem_range]
      omega
    · omega

theorem le_getLastD_of_sorted : ∀ {t : List Int} {a x : Int},
    List.Pairwise (· ≤ ·) (a :: t) → x ∈ a :: t → x ≤ (a :: t).getLastD a := by
  intro t
  induction t with
  | nil =>
    intro a x _ hx
    have : x = a := by simpa using hx
    simp [this]
  | cons b t2 ih =>
    intro a x hp hx
    have hpt : List.Pairwise (· ≤ ·) (b :: t2) := hp.tail
    rw [List.getLastD_cons]
    rcases List.mem_cons.mp hx with hx | hx
    · have hab : a ≤ b := (List.pairwise_cons.mp hp).1 b (List.mem_cons_self _ _)
      have := ih hpt (List.mem_cons_self b t2)
      calc x = a := hx
        _ ≤ b := hab
        _ ≤ (b :: t2).getLastD b := this
    · exact ih hpt hx

theorem getLastD_mem_cons : ∀ (t : List Int) (a : Int),
    (a :: t).getLastD a ∈ a :: t := by
  intro t
  induction t with
  | nil => intro a; simp
  | cons b t2 ih =>
    intro a
    rw [List.getLastD_cons]
    exact List.mem_cons_of_mem _ (ih b)

/-- Characterisation of `find_missing_numbers_in_sequence` on a sorted
list: exactly the integers strictly between some two observed values that
are themselves absent. -/
theorem missing_nums_spec {nums : List Int}
    (hs : List.Pairwise (· ≤ ·) nums) (n : Int) :
    n ∈ find_missing_numbers_in_sequence nums ↔
      (n ∉ nums ∧ (∃ lo ∈ nums, lo < n) ∧ (∃ hi ∈ nums, n < hi)) := by
  cases nums with
  | nil => simp [find_missing_numbers_in_sequence]
  | cons a t =>
    rw [find_missing_numbers_in_sequence, List.mem_filter]
    rw [mem_intRangeIncl]
    simp only [decide_eq_true_eq]
    constructor
    · rintro ⟨⟨h1, h2⟩, h3⟩
      refine ⟨h3, ⟨a, List.mem_cons_self _ _, ?_⟩,
        ⟨(a :: t).getLastD a, getLastD_mem_cons t a, ?_⟩⟩
      · rcases lt_or_eq_of_le h1 with h | h
        · exact h
        · exact absurd (h ▸ List.mem_cons_self a t) h3
      · rcases lt_or_eq_of_le h2 with h | h
        · exact h
        · exact absurd (h.symm ▸ getLastD_mem_cons t a) h3
    · rintro ⟨h3, ⟨lo, hlo, hlon⟩, ⟨hi, hhi, hnhi⟩⟩
      refine ⟨⟨?_, ?_⟩, h3⟩
      · have halo : a ≤ lo := by
          rcases List.mem_cons.mp hlo with h | h
          · exact h ▸ le_refl a
          · exact (List.pairwise_cons.mp hs).1 lo h
        exact le_of_lt (lt_of_le_of_lt halo hlon)
      · have hhil : hi ≤ (a :: t).getLastD a := le_getLastD_of_sorted hs hhi
        exact le_of_lt (lt_of_lt_of_le hnhi hhil)

/-! ### Lemmas about `build_sections` -/

theorem build_loop_getElem? (doc_title : String) (pages : List String) :
    ∀ (l : List (Heading × List Int)) (i : Nat),
    (build_loop doc_title pages l)[i]? =
      (l[i]?).map fun p =>
        mkSectionEntry doc_title pages p.1 ((l[i + 1]?).map fun q => q.1.page) := by
  intro l
  induction l with
  | nil => intro i; simp [build_loop]
  | cons p rest ih =>
    intro i
    obtain ⟨h, k⟩ := p
    cases i with
    | zero =>
      cases rest with
      | nil => rfl
      | cons q t =>
        simp [build_loop]
    | succ j =>
      simp only [build_loop, List.getElem?_cons_succ]
      exact ih j

theorem build_loop_length (doc_title : String) (pages : List String) :
    ∀ (l : List (Heading × List Int)),
    (build_loop doc_title pages l).length = l.length := by
  intro l
  induction l with
  | nil => rfl
  | cons p rest ih =>
    obtain ⟨h, k⟩ := p
    simp [build_loop, ih]

theorem sort_headings_spec {headings : List Heading}
    {sl : List (Heading × List Int)} (h : sort_headings headings = some sl) :
    List.Pairwise buildRel sl ∧ (sl.map Prod.fst).Perm headings ∧
      ∀ p ∈ sl, numeric_key p.1.sid = some p.2 := by
  unfold sort_headings at h
  rcases hd : decorateFindings headings with _ | kl <;> rw [hd] at h
  · simp at h
  · simp only [Option.map_some', Option.some.injEq] at h
    subst h
    refine ⟨List.sorted_insertionSort buildRel kl, ?_, ?_⟩
    · rw [← decorateFindings_map_fst hd]
      exact (List.perm_insertionSort buildRel kl).map Prod.fst
    · intro p hp
      exact decorateFindings_key hd p
        ((List.perm_insertionSort buildRel kl).mem_iff.mp hp)

theorem section_range_valid (num_pages : Nat) (page_start : Int)
    (next_page : Option Int) :
    1 ≤ (section_range num_pages page_start next_page).1 ∧
    (section_range num_pages page_start next_page).1 ≤
      (section_range num_pages page_start next_page).2 := by
  cases next_page with
  | none =>
    unfold section_range clipPage
    constructor
    · simp
    · simp only []
      omega
  | some np =>
    unfold section_range clipPage
    constructor
    · simp
    · simp only []
      omega

/-! ### The claims -/

/-- C1 counterexample: in ToC-mode extraction, two candidates share
section id "1", at pages 50 (first in text order) and 10 (numerically
earliest).  The claim says the page-10 candidate is retained; the code
retains the page-50 one, the first in match order. -/
theorem c1_counterexample :
    (parse_toc_entries [⟨"1", "A", 50⟩, ⟨"1", "B", 10⟩] 100 "d").map
      TocEntry.page = [50] ∧
    (parse_toc_entries [⟨"1", "A", 50⟩, ⟨"1", "B", 10⟩] 100 "d").map
      TocEntry.page ≠ [10] := by
  exact ⟨by decide, by decide⟩

/-- C1 (amended): the two extraction modes deduplicate differently.
Document-mode extraction (the dedup stage of `find_headings`) retains
exactly one candidate per section id, namely one at the numerically
smallest page among the candidates for that id, per the ascending
`(numeric_key(section_id), page)` sort.  ToC-mode extraction
(`parse_toc_entries`) instead retains the first occurrence in text order
among the matches passing the page and year filters, regardless of page;
later occurrences are dropped silently in both modes. -/
theorem c1_dedup_policies :
    (∀ (findings u : List Heading), dedup_headings findings = some u →
      (u.map Heading.sid).Nodup ∧
      (∀ s, s ∈ u.map Heading.sid ↔ s ∈ findings.map Heading.sid) ∧
      (∀ e ∈ u, e ∈ findings ∧
        ∀ f ∈ findings, f.sid = e.sid → e.page ≤ f.page)) ∧
    (∀ (num_pages : Nat) (doc_title : String) (pre : List TocMatch)
      (m : TocMatch) (post : List TocMatch),
      tocMatchPasses num_pages m = true →
      (∀ m2 ∈ pre, m2.sid = m.sid → tocMatchPasses num_pages m2 = false) →
      mkTocEntry doc_title m ∈
        parse_toc_entries (pre ++ m :: post) num_pages doc_title) ∧
    (∀ (ms : List TocMatch) (num_pages : Nat) (doc_title : String),
      ((parse_toc_entries ms num_pages doc_title).map
        TocEntry.section_id).Nodup) := by
  refine ⟨fun findings u h => dedup_headings_spec h, ?_, ?_⟩
  · intro num_pages doc_title pre m post hm hpre
    exact parse_toc_loop_first hm hpre (by simp)
  · intro ms num_pages doc_title
    exact parse_toc_loop_nodup

theorem c1_witness :
    mkTocEntry "d" ⟨"2", "T", 4⟩ ∈
      parse_toc_entries [⟨"2", "X 2014 Y", 4⟩, ⟨"2", "T", 4⟩] 10 "d" :=
  c1_dedup_policies.2.1 10 "d" [⟨"2", "X 2014 Y", 4⟩] ⟨"2", "T", 4⟩ []
    (by decide) (by decide)

/-- C2 counterexample: with `toc_ids = ["1","2","3"]` and
`spec_ids = ["2","3","x","y","z","1"]`, id "3" has section index 1, which
is below the maximum index 5 seen earlier (at id "1"), so the claim's rule
flags it; the code does not, because it compares against the immediately
preceding common id's index (0, at id "2"). -/
theorem c2_counterexample :
    find_order_mismatches ["1", "2", "3"] ["2", "3", "x", "y", "z", "1"] =
      ["2"] ∧
    last_index_of ["2", "3", "x", "y", "z", "1"] "1" = some 5 ∧
    last_index_of ["2", "3", "x", "y", "z", "1"] "3" = some 1 ∧
    (1 : Int) < 5 ∧
    "3" ∉ find_order_mismatches ["1", "2", "3"] ["2", "3", "x", "y", "z", "1"] := by
  exact ⟨by decide, by decide, by decide, by decide, by decide⟩

/-- C2 (amended): `find_order_mismatches` restricts `toc_ids` to ids
present in `spec_ids` (looking each up at its last index when duplicated),
walks them in ToC order, and flags an id exactly when its section index is
less than the index of the immediately preceding visited common id
(initially −1) — not the maximum index seen so far. -/
theorem c2_order_check_uses_previous_index :
    ∀ (toc_ids spec_ids : List String),
      find_order_mismatches toc_ids spec_ids =
        flagWalk (-1) (commonIndexed toc_ids spec_ids) :=
  fun toc_ids spec_ids => order_loop_eq_flagWalk spec_ids toc_ids (-1)

/-- C3 counterexample: with `toc_ids = ["2.9","2.10"]` and empty
`spec_ids`, the numeric key of "2.9" precedes that of "2.10", so the claim
predicts missing = ["2.9","2.10"]; the code sorts lexicographically and
returns ["2.10","2.9"]. -/
theorem c3_counterexample :
    find_missing_and_extra_sections ["2.9", "2.10"] [] =
      (["2.10", "2.9"], []) ∧
    numeric_key "2.9" = some [2, 9] ∧
    numeric_key "2.10" = some [2, 10] ∧
    ([2, 9] : List Int) < [2, 10] ∧
    find_missing_and_extra_sections ["2.9", "2.10"] [] ≠
      (["2.9", "2.10"], []) := by
  exact ⟨by decide, by decide, by decide, by decide, by decide⟩

/-- C3 (amended): `find_missing_and_extra_sections` returns
missing = set(toc_ids) − set(spec_ids) and
extra = set(spec_ids) − set(toc_ids), each without duplicates and sorted
lexicographically by code points (Python string order), not by numeric
key. -/
theorem c3_missing_extra_lexicographic :
    ∀ (toc_ids spec_ids : List String),
      (∀ s, s ∈ (find_missing_and_extra_sections toc_ids spec_ids).1 ↔
        (s ∈ toc_ids ∧ s ∉ spec_ids)) ∧
      (find_missing_and_extra_sections toc_ids spec_ids).1.Nodup ∧
      (find_missing_and_extra_sections toc_ids spec_ids).1.Sorted pyStrLe ∧
      (∀ s, s ∈ (find_missing_and_extra_sections toc_ids spec_ids).2 ↔
        (s ∈ spec_ids ∧ s ∉ toc_ids)) ∧
      (find_missing_and_extra_sections toc_ids spec_ids).2.Nodup ∧
      (find_missing_and_extra_sections toc_ids spec_ids).2.Sorted pyStrLe := by
  intro toc_ids spec_ids
  obtain ⟨m1, m2, m3⟩ := missing_side_spec toc_ids spec_ids
  obtain ⟨e1, e2, e3⟩ := missing_side_spec spec_ids toc_ids
  exact ⟨m1, m2, m3, e1, e2, e3⟩

/-- C4: gap detection considers, within each parent group, only ids at the
first child's depth; with at least two such members and a non-empty
numeric set it reports exactly the integers strictly inside the observed
min..max range of final components that are absent, rendered as dotted
ids; siblings 2.1, 2.2, 2.4 give gap (2, 2.3), the root siblings 1, 2, 3
give no gap, and a single-child group gives no gap. -/
theorem c4_gap_detection :
    (∀ (children : List String) (n : Int),
      n ∈ find_missing_numbers_in_sequence (siblingNums children) ↔
        (n ∉ siblingNums children ∧
          (∃ lo ∈ siblingNums children, lo < n) ∧
          (∃ hi ∈ siblingNums children, n < hi))) ∧
    (∀ (parent : String) (children : List String),
      2 ≤ children.length → 2 ≤ (sameDepthChildren children).length →
      siblingNums children ≠ [] →
      find_missing_numbers_in_sequence (siblingNums children) ≠ [] →
      process_parent_group parent children =
        some (if parent = "<root>" then "<top-level>" else parent,
          String.intercalate ", "
            ((find_missing_numbers_in_sequence (siblingNums children)).map
              (renderGapId parent)))) ∧
    detect_gaps ["2.1", "2.2", "2.4"] = [("2", "2.3")] ∧
    detect_gaps ["1", "2", "3"] = [] ∧
    detect_gaps ["5.1"] = [] := by
  refine ⟨fun children n => missing_nums_spec (siblingNums_sorted children) n,
    ?_, by decide, by decide, by decide⟩
  intro parent children h1 h2 h3 h4
  unfold process_parent_group
  rw [if_neg (by omega), if_neg (by omega),
    if_neg (fun hc => h3 (List.isEmpty_iff.mp hc)),
    if_neg (fun hc => h4 (List.isEmpty_iff.mp hc))]

theorem c4_witness :
    process_parent_group "2" ["2.1", "2.2", "2.4"] =
      some (if "2" = "<root>" then "<top-level>" else "2",
        String.intercalate ", "
          ((find_missing_numbers_in_sequence
            (siblingNums ["2.1", "2.2", "2.4"])).map (renderGapId "2"))) :=
  c4_gap_detection.2.1 "2" ["2.1", "2.2", "2.4"]
    (by decide) (by decide) (by decide) (by decide)

/-- C5 counterexample: two sorted headings on the same page 2 of a 3-page
document.  The claimed range `[page_i, page_{i+1} − 1] = [2, 1]` would give
the first section empty content, but the code clamps `page_end` to at
least `page_start` and the first section's content is page 2's text. -/
theorem c5_counterexample :
    (build_sections ["A", "B", "C"] [⟨"1", "x", 2⟩, ⟨"2", "y", 2⟩] "d").map
      (List.map SectionEntry.content) = some ["B", "B\n\nC"] ∧
    joinContent (slicePages ["A", "B", "C"] (2, 1)) = "" ∧
    ("B" : String) ≠ "" := by
  exact ⟨by decide, by decide, by decide⟩

/-- C5 (amended): `build_sections` sorts the headings by
`(page, numeric_key(id))`; the heading at index i receives the page range
`[clip(page_i), clip(max(page_i, page_{i+1} − 1))]` — the upper end never
below the lower — with the last heading's range extending to `num_pages`,
and its content is the whitespace-trimmed blank-line-joined text of the
pages in that range; the spec's 6-page example evaluates as claimed. -/
theorem c5_build_sections_algorithm :
    (∀ (pages : List String) (headings : List Heading) (doc_title : String)
      (sl : List (Heading × List Int)),
      sort_headings headings = some sl →
      (List.Pairwise buildRel sl ∧ (sl.map Prod.fst).Perm headings ∧
        (∀ p ∈ sl, numeric_key p.1.sid = some p.2)) ∧
      build_sections pages headings doc_title =
        some (build_loop doc_title pages sl) ∧
      (∀ (i : Nat) (p : Heading × List Int), sl[i]? = some p →
        ∃ e : SectionEntry, (build_loop doc_title pages sl)[i]? = some e ∧
          e.section_id = p.1.sid ∧
          e.page = (section_range pages.length p.1.page
            ((sl[i + 1]?).map fun q => q.1.page)).1 ∧
          e.content = joinContent (slicePages pages
            (section_range pages.length p.1.page
              ((sl[i + 1]?).map fun q => q.1.page))))) ∧
    build_sections ["P1", "P2", "P3", "P4", "P5", "P6"]
      [⟨"1", "Overview", 1⟩, ⟨"1.1", "Intro", 3⟩, ⟨"2", "Power Delivery", 5⟩]
      "d" = some
      [⟨"d", "1", "Overview", 1, 1, none, "1 Overview", "P1\n\nP2", []⟩,
       ⟨"d", "1.1", "Intro", 3, 2, some "1", "1.1 Intro", "P3\n\nP4", []⟩,
       ⟨"d", "2", "Power Delivery", 5, 1, none, "2 Power Delivery",
         "P5\n\nP6", []⟩] := by
  refine ⟨?_, by decide⟩
  intro pages headings doc_title sl hsl
  refine ⟨sort_headings_spec hsl, ?_, ?_⟩
  · unfold build_sections
    rw [hsl]
    rfl
  · intro i p hp
    have hb := build_loop_getElem? doc_title pages sl i
    rw [hp, Option.map_some'] at hb
    refine ⟨_, hb, rfl, rfl, rfl⟩

theorem c5_witness :
    build_sections ["P1", "P2", "P3", "P4", "P5", "P6"]
      [⟨"1", "Overview", 1⟩, ⟨"1.1", "Intro", 3⟩, ⟨"2", "Power Delivery", 5⟩]
      "d" = some (build_loop "d" ["P1", "P2", "P3", "P4", "P5", "P6"]
        [(⟨"1", "Overview", 1⟩, [1]), (⟨"1.1", "Intro", 3⟩, [1, 1]),
         (⟨"2", "Power Delivery", 5⟩, [2])]) :=
  ((c5_build_sections_algorithm.1 ["P1", "P2", "P3", "P4", "P5", "P6"]
    [⟨"1", "Overview", 1⟩, ⟨"1.1", "Intro", 3⟩, ⟨"2", "Power Delivery", 5⟩]
    "d" [(⟨"1", "Overview", 1⟩, [1]), (⟨"1.1", "Intro", 3⟩, [1, 1]),
         (⟨"2", "Power Delivery", 5⟩, [2])] (by decide)).2).1

/-- C6 counterexample: with 40 structured sections and 90 page-fallback
sections the claim says the structured result is kept, but 90 is strictly
more than double 40, so the code selects the page-fallback result. -/
theorem c6_counterexample :
    select_sections (List.replicate 40 sampleSection)
        (List.replicate 90 sampleSection) =
      List.replicate 90 sampleSection ∧
    List.replicate 90 sampleSection ≠ List.replicate 40 sampleSection := by
  constructor
  · norm_num [select_sections]
  · intro h
    have := congrArg List.length h
    simp at this

/-- C6 (amended): the page-fallback result is selected exactly when the
structured build yields fewer than 100 sections and the fallback yields
strictly more than double the structured count; in particular with 40
structured sections a fallback of 90 (> 80) selects the fallback, a
fallback of 80 keeps the structured result, and a fallback of 200 selects
the fallback. -/
theorem c6_selection_rule :
    (∀ s p : List SectionEntry, 100 ≤ s.length → select_sections s p = s) ∧
    (∀ s p : List SectionEntry, s.length < 100 →
      p.length ≤ 2 * s.length → select_sections s p = s) ∧
    (∀ s p : List SectionEntry, s.length < 100 →
      2 * s.length < p.length → select_sections s p = p) ∧
    select_sections (List.replicate 40 sampleSection)
        (List.replicate 80 sampleSection) =
      List.replicate 40 sampleSection ∧
    select_sections (List.replicate 40 sampleSection)
        (List.replicate 200 sampleSection) =
      List.replicate 200 sampleSection := by
  refine ⟨?_, ?_, ?_, by norm_num [select_sections], by norm_num [select_sections]⟩
  · intro s p h
    unfold select_sections
    rw [if_neg (by omega)]
  · intro s p h1 h2
    unfold select_sections
    rw [if_pos h1, if_neg (by omega)]
  · intro s p h1 h2
    unfold select_sections
    rw [if_pos h1, if_pos (by omega)]

theorem c6_witness :
    select_sections (List.replicate 40 sampleSection)
        (List.replicate 90 sampleSection) =
      List.replicate 90 sampleSection :=
  c6_selection_rule.2.2.1 (List.replicate 40 sampleSection)
    (List.replicate 90 sampleSection) (by simp) (by simp)

/-- C7: `normalize_title` maps "Title .......... " and "Title . . . . ." to
"Title", and is idempotent: normalizing twice equals normalizing once, for
every string. -/
theorem c7_normalize_title_idempotent :
    normalize_title "Title .......... " = "Title" ∧
    normalize_title "Title . . . . ." = "Title" ∧
    ∀ s : String, normalize_title (normalize_title s) = normalize_title s := by
  refine ⟨by decide, by decide, fun s => ?_⟩
  show String.mk (normalize_title_chars (normalize_title_chars s.toList)) =
    String.mk (normalize_title_chars s.toList)
  rw [normalize_title_chars_idem]

/-- C8: every outline entry produced by `parse_toc_entries` satisfies the
data-model invariants: `parent_id` is the section id with its last dotted
component removed and is absent exactly when `level = 1`; `level` is the
dot count plus one, hence at least 1; `full_path` is the section id and
title joined by a space; and section ids are unique within the output;
concretely the parent of "2.1.2" is "2.1" and "1" has no parent. -/
theorem c8_outline_invariants :
    (∀ (ms : List TocMatch) (num_pages : Nat) (doc_title : String)
      (e : TocEntry), e ∈ parse_toc_entries ms num_pages doc_title →
      e.parent_id = infer_parent_id e.section_id ∧
      (e.parent_id = none ↔ e.level = 1) ∧
      e.level = e.section_id.toList.count '.' + 1 ∧
      1 ≤ e.level ∧
      e.full_path = e.section_id ++ " " ++ e.title) ∧
    (∀ (ms : List TocMatch) (num_pages : Nat) (doc_title : String),
      ((parse_toc_entries ms num_pages doc_title).map
        TocEntry.section_id).Nodup) ∧
    infer_parent_id "2.1.2" = some "2.1" ∧
    infer_parent_id "1" = none := by
  refine ⟨?_, fun ms np dt => parse_toc_loop_nodup, by decide, by decide⟩
  intro ms num_pages doc_title e he
  obtain ⟨m, _, _, heq⟩ := parse_toc_loop_mem he
  subst heq
  refine ⟨rfl, ?_, rfl, by simp [mkTocEntry], rfl⟩
  show infer_parent_id m.sid = none ↔ m.sid.toList.count '.' + 1 = 1
  by_cases hdot : '.' ∈ m.sid.toList
  · rw [infer_parent_id, if_pos hdot]
    constructor
    · intro hc
      exact absurd hc (by simp)
    · intro hc
      have : m.sid.toList.count '.' = 0 := by omega
      exact absurd (List.count_eq_zero.mp this) (by simpa using hdot)
  · rw [infer_parent_id, if_neg hdot]
    have hc : m.sid.toList.count '.' = 0 := List.count_eq_zero.mpr hdot
    constructor
    · intro _
      omega
    · intro _
      rfl

theorem c8_witness :
    (mkTocEntry "d" ⟨"2.1.2", "T", 5⟩).parent_id =
      infer_parent_id (mkTocEntry "d" ⟨"2.1.2", "T", 5⟩).section_id ∧
    ((mkTocEntry "d" ⟨"2.1.2", "T", 5⟩).parent_id = none ↔
      (mkTocEntry "d" ⟨"2.1.2", "T", 5⟩).level = 1) ∧
    (mkTocEntry "d" ⟨"2.1.2", "T", 5⟩).level =
      (mkTocEntry "d" ⟨"2.1.2", "T", 5⟩).section_id.toList.count '.' + 1 ∧
    1 ≤ (mkTocEntry "d" ⟨"2.1.2", "T", 5⟩).level ∧
    (mkTocEntry "d" ⟨"2.1.2", "T", 5⟩).full_path =
      (mkTocEntry "d" ⟨"2.1.2", "T", 5⟩).section_id ++ " " ++
        (mkTocEntry "d" ⟨"2.1.2", "T", 5⟩).title :=
  c8_outline_invariants.1 [⟨"2.1.2", "T", 5⟩] 10 "d"
    (mkTocEntry "d" ⟨"2.1.2", "T", 5⟩) (by decide)

/-- C9: after clamping, every section's page range satisfies
`page_start ≥ 1` and `page_end ≥ page_start`, so the range is non-empty
and contains the section's own starting page; concretely, two headings on
the same page still give the first section its own page's text. -/
theorem c9_section_range_nonempty :
    (∀ (num_pages : Nat) (page_start : Int) (next_page : Option Int),
      1 ≤ (section_range num_pages page_start next_page).1 ∧
      (section_range num_pages page_start next_page).1 ≤
        (section_range num_pages page_start next_page).2 ∧
      (section_range num_pages page_start next_page).1 ∈
        intRangeIncl (section_range num_pages page_start next_page).1
          (section_range num_pages page_start next_page).2) ∧
    (build_sections ["A", "B", "C", "D"] [⟨"3", "t", 2⟩, ⟨"3.1", "u", 2⟩]
      "d").map (List.map SectionEntry.content) =
      some ["B", "B\n\nC\n\nD"] := by
  refine ⟨?_, by decide⟩
  intro num_pages page_start next_page
  obtain ⟨h1, h2⟩ := section_range_valid num_pages page_start next_page
  exact ⟨h1, h2, mem_intRangeIncl.mpr ⟨le_refl _, h2⟩⟩

/-- C10: `get_numeric_last_component` is total: a section id whose final
dot component does not parse as an integer is mapped to the sentinel −1,
which the gap computation excludes (all members of `nums` are
non-negative); concretely "page_12" gets −1 and page-fallback ids produce
no gap and never appear in one. -/
theorem c10_gap_sentinel_totality :
    (∀ (sid : String) (comp : List Char),
      (splitOnDot sid.toList).getLast? = some comp → pyInt comp = none →
      get_numeric_last_component sid = -1) ∧
    (∀ (children : List String) (n : Int),
      n ∈ siblingNums children → 0 ≤ n) ∧
    get_numeric_last_component "page_12" = -1 ∧
    detect_gaps ["page_12", "page_13", "2.1", "2.2", "2.4"] =
      [("2", "2.3")] := by
  refine ⟨?_, ?_, by decide, by decide⟩
  · intro sid comp h1 h2
    unfold get_numeric_last_component
    rw [h1]
    simp only [h2]
  · intro children n hn
    have := (List.mem_filter.mp hn).2
    simpa using this

theorem c10_witness :
    get_numeric_last_component "page_12" = -1 :=
  c10_gap_sentinel_totality.1 "page_12" "page_12".toList
    (by decide) (by decide)

end UsbPd
